import Mathlib

/-
Shallow embedding of the predictive/decision core of `nrl_picks_v2.py`
(NRL Picks 2.0): the logistic rating transform, two-way de-vigorization,
fractional-Kelly stake sizing, the Elo replay engine, the hyperparameter
grid search, and the pick aggregator's side-selection / threshold /
ordering logic.  Python floats are modelled as real numbers.

Caveat on the rating engine: the `run_elo` loop body reads `r.as` at
source lines 74, 75 and 77.  `as` is a reserved Python keyword, so the
attribute access `r.as` is a compile-time SyntaxError: CPython rejects the
whole module before executing anything, and `run_elo` (indeed any code in
the file) can never run.  The definitions `eloStep`, `run_elo`, `lossAt`,
`tune_elo` and `modelParams` below therefore model the evident INTENT of
those lines, following the spec's wording (spec sections 4.2, 4.3 and the
`main` fallback); theorems about them establish what the intended engine
does, not what the shipped script does — the shipped script crashes at
parse time.
-/

namespace NrlPicks

/- ## Definitions: probability utilities (source lines 23-35) -/

/-- Embeds `logistic(x) = 1.0/(1.0+10.0**(-x/400.0))` (source line 23). -/
noncomputable def logistic (x : ℝ) : ℝ := 1 / (1 + (10 : ℝ) ^ (-x / 400))

/-- A Python value passed to `devig_two_way`: either a number
(`int`/`float`, modelled as a real) or anything non-numeric. -/
inductive PyVal where
  | num (x : ℝ)
  | other

/-- Embeds `devig_two_way(a,b)` (source lines 25-28): `(None,None)` when an
input is non-numeric or `<= 1`; otherwise the reciprocals renormalized by
their sum.  The `(None,None)` result is modelled as `none`. -/
noncomputable def devig_two_way (a b : PyVal) : Option (ℝ × ℝ) :=
  match a, b with
  | PyVal.num x, PyVal.num y =>
      if x ≤ 1 ∨ y ≤ 1 then none
      else
        let pa := 1 / x
        let pb := 1 / y
        let s := pa + pb
        some (pa / s, pb / s)
  | _, _ => none

/-- Embeds `kelly_fraction(p,odds,k)` (source lines 30-35).  The module
global `MAX_KELLY` is passed explicitly as the first argument. -/
noncomputable def kelly_fraction (MAX_KELLY p odds k : ℝ) : ℝ :=
  if odds ≤ 1 then 0
  else
    let b := odds - 1
    let f := (p * (b + 1) - 1) / b
    let f2 := max 0 (k * f)
    min f2 MAX_KELLY

/- ## Definitions: the rating engine (`run_elo`, source lines 69-80) -/

/-- The rating mapping: Python dict from competitor name to rating,
modelled as an association list in insertion order. -/
abbrev Ratings := List (String × ℝ)

/-- Embeds `ratings.get(t, 1500.0)`-style lookup (source line 72);
unknown competitors default to `1500`. -/
def getR : Ratings → String → ℝ
  | [], _ => 1500
  | (s, w) :: rest, t => if s = t then w else getR rest t

/-- Embeds Python dict assignment `ratings[t] = v`: replace the first
binding of `t` if present, else append. -/
def setR : Ratings → String → ℝ → Ratings
  | [], t, v => [(t, v)]
  | (s, w) :: rest, t, v =>
      if s = t then (s, v) :: rest else (s, w) :: setR rest t v

/-- A completed match record: the `{home, away, hs, as}` rows built at
source lines 51-54 (where the string key `"as"` is legal Python) and
intended to be consumed by `run_elo`; scores are Python floats, modelled
as reals. -/
structure MatchRec where
  home : String
  away : String
  hs : ℝ
  as : ℝ

/-- The `eps` floor used in the log-loss accumulation (`eps=1e-9`,
source line 70). -/
noncomputable def eloEps : ℝ := 1 / 1000000000

/-- Modelled from the spec: one iteration of the intended `run_elo` loop
body (spec section 4.2, steps 1-6) on the state `(ratings, ll, n)`.
What is missing from the source: an executable form of lines 74-77 —
`r.as` is a SyntaxError (`as` is a reserved Python keyword), so the loop
body as written at source lines 71-79 can never execute; this definition
follows the spec's update-step wording, which matches the evident intent
of those lines (`r.as` read as "the away-score column `as`"). -/
noncomputable def eloStep (K HFA : ℝ) (st : Ratings × ℝ × ℕ) (m : MatchRec) :
    Ratings × ℝ × ℕ :=
  let rh := getR st.1 m.home
  let ra := getR st.1 m.away
  let p_home := logistic ((rh - ra) + HFA)
  let y : ℝ := if m.hs = m.as then 0.5 else if m.hs > m.as then 1 else 0
  let margin := |m.hs - m.as|
  let k_eff := K * (1 + Real.log (1 + margin))
  let rs :=
    setR (setR st.1 m.home (rh + k_eff * (y - p_home))) m.away
      (ra - k_eff * (y - p_home))
  let ll := st.2.1 -
    (y * Real.log (max p_home eloEps) +
      (1 - y) * Real.log (max (1 - p_home) eloEps))
  (rs, ll, st.2.2 + 1)

/-- Modelled from the spec: the intended `run_elo(df, K, HFA)` replay
(source lines 69-80): fold the (spec-modelled) loop body over the match
list, then return the ratings and `ll / max(n, 1)`.  The source function
lives in a module that fails to parse (lines 74-77), so the real script
has no executions of `run_elo` at all. -/
noncomputable def run_elo (df : List MatchRec) (K HFA : ℝ) : Ratings × ℝ :=
  let st := df.foldl (eloStep K HFA) ([], 0, 0)
  (st.1, st.2.1 / ((max st.2.2 1 : ℕ) : ℝ))

/- ## Definitions: spec-side formulas for the update step -/

/-- Modelled from the spec: home win probability
`logistic((home_rating - away_rating) + HFA)`. -/
noncomputable def specPHome (rh ra HFA : ℝ) : ℝ := logistic ((rh - ra) + HFA)

/-- Modelled from the spec: outcome label `1.0` if home scored strictly
more, `0.0` if away scored strictly more, `0.5` on an exact tie. -/
noncomputable def specOutcome (hs asc : ℝ) : ℝ :=
  if hs > asc then 1 else if asc > hs then 0 else 0.5

/-- Modelled from the spec: effective update rate
`K * (1 + ln(1 + |home_score - away_score|))`. -/
noncomputable def specKeff (K hs asc : ℝ) : ℝ :=
  K * (1 + Real.log (1 + |hs - asc|))

/- ## Definitions: the hyperparameter tuner (`tune_elo`, source lines 82-88) -/

/-- Modelled from the spec: the mean log-loss of the intended full replay
at parameters `kh = (K, HFA)` (the `loss` read at source line 86; the real
script can never compute it, since `run_elo` does not parse). -/
noncomputable def lossAt (df : List MatchRec) (kh : ℝ × ℝ) : ℝ :=
  (run_elo df kh.1 kh.2).2

/-- The tuner's candidate grid, enumerated exactly as the nested loops
`for K in [15,25,35]: for HFA in [40,60,80]` do (source lines 84-85). -/
noncomputable def eloGrid : List (ℝ × ℝ) :=
  ([15, 25, 35] : List ℝ).flatMap fun K =>
    ([40, 60, 80] : List ℝ).map fun HFA => (K, HFA)

/-- One iteration of the tuner loop body (source lines 86-87) on the state
`(best, params)`: replace the incumbent only on a strictly smaller loss. -/
noncomputable def tuneStep {α : Type} (f : α → ℝ) (acc : Option ℝ × α)
    (x : α) : Option ℝ × α :=
  match acc with
  | (none, _) => (some (f x), x)
  | (some b, p) => if f x < b then (some (f x), x) else (some b, p)

/-- Embeds `tune_elo(df)` (source lines 82-88, themselves syntactically
valid Python): fold the tuner loop body over the grid from `best=None`,
`params={"K":30.0,"HFA":60.0}`.  The replay losses it records come from
the spec-modelled `run_elo`: in the real script no replay can ever be
invoked, because the module fails to parse at lines 74-77. -/
noncomputable def tune_elo (df : List MatchRec) : ℝ × ℝ :=
  (eloGrid.foldl (tuneStep (lossAt df)) (none, (30, 60))).2

/-- First-strict-improvement fold: the reference form the tuner fold is
reduced to (keeps the incumbent on ties). -/
noncomputable def minFold {α : Type} (f : α → ℝ) (a : α) (l : List α) : α :=
  l.foldl (fun acc x => if f x < f acc then x else acc) a

/-- Embeds the model-selection branch of `main` (source lines 93-98): on an
empty history fall back to empty ratings and the fixed default `HFA = 60`,
otherwise tune and replay; returns `(ratings, HFA)`.  Its non-empty path
calls the spec-modelled tuner/replay; in the real script this branch is
unreachable, since the module fails to parse at lines 74-77. -/
noncomputable def modelParams (hist : List MatchRec) : Ratings × ℝ :=
  if hist.isEmpty then ([], 60)
  else
    ((run_elo hist (tune_elo hist).1 (tune_elo hist).2).1, (tune_elo hist).2)

/- ## Definitions: the pick aggregator (`main`, source lines 105-155) -/

/-- The recommended side of a contest. -/
inductive Side where
  | home
  | away
deriving DecidableEq

/-- An upcoming contest after best-of-market price selection (source lines
110-119): the two competitors, the kickoff sort key, and the best valid
(numeric) decimal price found for each side. -/
structure Contest where
  home : String
  away : String
  ko : ℕ
  bestHome : ℝ
  bestAway : ℝ

/-- A recommendation record (the row appended at source lines 138-153),
restricted to the fields the claims speak about: kickoff sort key, chosen
side and selection, its price, de-vigged market probability, model
probability, and edge. -/
structure Pick where
  ko : ℕ
  side : Side
  sel : String
  price : ℝ
  mp : ℝ
  p : ℝ
  edge : ℝ

/-- Embeds `edge_home,edge_away=p_home-m_home, p_away-m_away` (source line
126) with `p_away = 1.0 - p_home` (source line 125). -/
noncomputable def edgePair (p_home m_home m_away : ℝ) : ℝ × ℝ :=
  (p_home - m_home, (1 - p_home) - m_away)

/-- Embeds the per-contest body of `main`'s aggregator loop (source lines
121-153): de-vig the best prices (skipping the contest on `None`), compute
the home model probability from the current ratings plus `HFA`, take both
sides' edges, pick the side with the weakly larger edge (`edge_home >=
edge_away` favors home on ties), and drop the contest unless the chosen
edge reaches `EDGE_MIN`. -/
noncomputable def processContest (ratings : Ratings) (HFA EDGE_MIN : ℝ)
    (c : Contest) : Option Pick :=
  match devig_two_way (PyVal.num c.bestHome) (PyVal.num c.bestAway) with
  | none => none
  | some (m_home, m_away) =>
      let rh := getR ratings c.home
      let ra := getR ratings c.away
      let p_home := logistic ((rh - ra) + HFA)
      let e := edgePair p_home m_home m_away
      let pk : Pick :=
        if e.1 ≥ e.2 then
          ⟨c.ko, Side.home, c.home, c.bestHome, m_home, p_home, e.1⟩
        else
          ⟨c.ko, Side.away, c.away, c.bestAway, m_away, 1 - p_home, e.2⟩
      if pk.edge < EDGE_MIN then none else some pk

/-- The sort key of `df.sort_values(["Kickoff (AEST)","Edge"],
ascending=[True,False])` (source line 155): ascending kickoff, then
descending edge within equal kickoffs. -/
noncomputable def pickLE (a b : Pick) : Bool :=
  decide (a.ko < b.ko ∨ (a.ko = b.ko ∧ b.edge ≤ a.edge))

/-- Embeds the final output ordering of `main` (source line 155). -/
noncomputable def sortPicks (l : List Pick) : List Pick := l.mergeSort pickLE

/-- The aggregator end to end: per-contest processing, then the sort. -/
noncomputable def mainPicks (ratings : Ratings) (HFA EDGE_MIN : ℝ)
    (cs : List Contest) : List Pick :=
  sortPicks (cs.filterMap (processContest ratings HFA EDGE_MIN))

/- ## Lemmas: probability utilities -/

lemma rpow_ten_pos (t : ℝ) : 0 < (10 : ℝ) ^ t :=
  Real.rpow_pos_of_pos (by norm_num) t

lemma logistic_pos (x : ℝ) : 0 < logistic x := by
  unfold logistic
  have h := rpow_ten_pos (-x / 400)
  positivity

lemma logistic_lt_one (x : ℝ) : logistic x < 1 := by
  unfold logistic
  have h := rpow_ten_pos (-x / 400)
  rw [div_lt_one (by linarith)]
  linarith

lemma logistic_zero : logistic 0 = 1 / 2 := by
  unfold logistic
  rw [neg_zero, zero_div, Real.rpow_zero]
  norm_num

lemma logistic_strictMono : StrictMono logistic := by
  intro x y hxy
  unfold logistic
  have hx := rpow_ten_pos (-x / 400)
  have hy := rpow_ten_pos (-y / 400)
  have hexp : (10 : ℝ) ^ (-y / 400) < (10 : ℝ) ^ (-x / 400) := by
    apply Real.rpow_lt_rpow_left_iff (by norm_num : (1 : ℝ) < 10) |>.mpr
    linarith
  apply div_lt_div_of_pos_left (by norm_num) (by linarith) (by linarith)

lemma devig_none_iff (x y : ℝ) :
    devig_two_way (PyVal.num x) (PyVal.num y) = none ↔ x ≤ 1 ∨ y ≤ 1 := by
  unfold devig_two_way
  by_cases h : x ≤ 1 ∨ y ≤ 1 <;> simp [h]

lemma devig_eq_of_gt (x y : ℝ) (hx : 1 < x) (hy : 1 < y) :
    devig_two_way (PyVal.num x) (PyVal.num y) =
      some ((1 / x) / (1 / x + 1 / y), (1 / y) / (1 / x + 1 / y)) := by
  unfold devig_two_way
  have h : ¬(x ≤ 1 ∨ y ≤ 1) := by push_neg; exact ⟨hx, hy⟩
  simp [h]

lemma devig_sum_one (x y p q : ℝ)
    (h : devig_two_way (PyVal.num x) (PyVal.num y) = some (p, q)) :
    p + q = 1 ∧ p ∈ Set.Ioo (0 : ℝ) 1 ∧ q ∈ Set.Ioo (0 : ℝ) 1 := by
  unfold devig_two_way at h
  by_cases hc : x ≤ 1 ∨ y ≤ 1
  · simp [hc] at h
  · push_neg at hc
    obtain ⟨hx, hy⟩ := hc
    simp only [if_neg (by push_neg; exact ⟨hx, hy⟩ : ¬(x ≤ 1 ∨ y ≤ 1)),
      Option.some.injEq, Prod.mk.injEq] at h
    obtain ⟨hp, hq⟩ := h
    have hxpos : (0 : ℝ) < 1 / x := by positivity
    have hypos : (0 : ℝ) < 1 / y := by positivity
    have hs : (0 : ℝ) < 1 / x + 1 / y := by linarith
    subst hp hq
    refine ⟨by field_simp, ⟨by positivity, ?_⟩, ⟨by positivity, ?_⟩⟩
    · rw [div_lt_one hs]; linarith
    · rw [div_lt_one hs]; linarith

/- ## Lemmas: rating map and the update step -/

lemma getR_setR_self (rs : Ratings) (t : String) (v : ℝ) :
    getR (setR rs t v) t = v := by
  induction rs with
  | nil => simp [getR, setR]
  | cons hd rest ih =>
    obtain ⟨s, w⟩ := hd
    by_cases h : s = t
    · simp [getR, setR, h]
    · simp [getR, setR, h, ih]

lemma getR_setR_ne (rs : Ratings) (t u : String) (v : ℝ) (h : t ≠ u) :
    getR (setR rs t v) u = getR rs u := by
  induction rs with
  | nil => simp [getR, setR, h]
  | cons hd rest ih =>
    obtain ⟨s, w⟩ := hd
    by_cases hs : s = t
    · subst hs
      simp [getR, setR, h]
    · by_cases hu : s = u <;> simp [getR, setR, hs, hu, ih, Ne.symm h]

lemma getR_absent (rs : Ratings) (t : String) (h : ∀ p ∈ rs, p.1 ≠ t) :
    getR rs t = 1500 := by
  induction rs with
  | nil => rfl
  | cons hd rest ih =>
    obtain ⟨s, w⟩ := hd
    have hst : s ≠ t := h (s, w) (List.mem_cons_self _ _)
    simp only [getR, if_neg hst]
    exact ih fun p hp => h p (List.mem_cons_of_mem _ hp)

lemma outcome_code_eq_spec (hs asc : ℝ) :
    (if hs = asc then (0.5 : ℝ) else if hs > asc then 1 else 0) =
      specOutcome hs asc := by
  unfold specOutcome
  rcases lt_trichotomy hs asc with h | h | h
  · rw [if_neg (ne_of_lt h), if_neg (not_lt_of_lt h), if_neg (not_lt_of_lt h),
      if_pos h]
  · rw [if_pos h, if_neg (by rw [h]; exact lt_irrefl asc),
      if_neg (by rw [h]; exact lt_irrefl asc)]
  · rw [if_neg (Ne.symm (ne_of_lt h)), if_pos h, if_pos h]

lemma eloStep_ratings (K HFA : ℝ) (st : Ratings × ℝ × ℕ) (m : MatchRec)
    (h : m.home ≠ m.away) :
    getR (eloStep K HFA st m).1 m.home =
      getR st.1 m.home +
        specKeff K m.hs m.as *
          (specOutcome m.hs m.as -
            specPHome (getR st.1 m.home) (getR st.1 m.away) HFA) ∧
    getR (eloStep K HFA st m).1 m.away =
      getR st.1 m.away -
        specKeff K m.hs m.as *
          (specOutcome m.hs m.as -
            specPHome (getR st.1 m.home) (getR st.1 m.away) HFA) := by
  unfold eloStep specKeff specPHome
  simp only
  rw [outcome_code_eq_spec]
  constructor
  · rw [getR_setR_ne _ _ _ _ (Ne.symm h), getR_setR_self]
  · rw [getR_setR_self]

lemma run_elo_nil (K HFA : ℝ) : run_elo [] K HFA = ([], 0) := by
  unfold run_elo
  simp

/- ## Lemmas: the tuner fold -/

lemma minFold_cons {α : Type} (f : α → ℝ) (a x : α) (l : List α) :
    minFold f a (x :: l) = minFold f (if f x < f a then x else a) l := rfl

lemma foldl_tuneStep_some {α : Type} (f : α → ℝ) (a : α) (l : List α) :
    l.foldl (tuneStep f) (some (f a), a) =
      (some (f (minFold f a l)), minFold f a l) := by
  induction l generalizing a with
  | nil => rfl
  | cons x l ih =>
    rw [List.foldl_cons, minFold_cons]
    by_cases h : f x < f a
    · rw [show tuneStep f (some (f a), a) x = (some (f x), x) by
        simp [tuneStep, h]]
      rw [if_pos h]
      exact ih x
    · rw [show tuneStep f (some (f a), a) x = (some (f a), a) by
        simp [tuneStep, h]]
      rw [if_neg h]
      exact ih a

lemma foldl_tuneStep_none {α : Type} (f : α → ℝ) (d a : α) (l : List α) :
    (a :: l).foldl (tuneStep f) (none, d) =
      (some (f (minFold f a l)), minFold f a l) := by
  rw [List.foldl_cons]
  rw [show tuneStep f (none, d) a = (some (f a), a) from rfl]
  exact foldl_tuneStep_some f a l

lemma minFold_le {α : Type} (f : α → ℝ) (a : α) (l : List α) :
    f (minFold f a l) ≤ f a ∧ ∀ x ∈ l, f (minFold f a l) ≤ f x := by
  induction l generalizing a with
  | nil => exact ⟨le_refl _, by simp⟩
  | cons x l ih =>
    rw [minFold_cons]
    by_cases h : f x < f a
    · rw [if_pos h]
      obtain ⟨h1, h2⟩ := ih x
      refine ⟨le_of_lt (lt_of_le_of_lt h1 h), fun z hz => ?_⟩
      rcases List.mem_cons.mp hz with hz | hz
      · rw [hz]; exact h1
      · exact h2 z hz
    · rw [if_neg h]
      push_neg at h
      obtain ⟨h1, h2⟩ := ih a
      refine ⟨h1, fun z hz => ?_⟩
      rcases List.mem_cons.mp hz with hz | hz
      · rw [hz]; exact le_trans h1 h
      · exact h2 z hz

lemma minFold_first {α : Type} (f : α → ℝ) (d a : α) (l : List α) :
    ∃ i, i < (a :: l).length ∧ (a :: l).getD i d = minFold f a l ∧
      ∀ j, j < i → f (minFold f a l) < f ((a :: l).getD j d) := by
  induction l generalizing a with
  | nil =>
    refine ⟨0, by simp, rfl, fun j hj => absurd hj (by omega)⟩
  | cons x l ih =>
    rw [minFold_cons]
    by_cases h : f x < f a
    · rw [if_pos h]
      obtain ⟨i, hi, heq, hfirst⟩ := ih x
      refine ⟨i + 1, by simpa using hi, by simpa using heq, ?_⟩
      intro j hj
      match j with
      | 0 =>
        have hle := (minFold_le f x l).1
        simpa using lt_of_le_of_lt hle h
      | j + 1 =>
        have hj' : j < i := by omega
        simpa using hfirst j hj'
    · rw [if_neg h]
      push_neg at h
      obtain ⟨i, hi, heq, hfirst⟩ := ih a
      match i, hi, heq, hfirst with
      | 0, hi, heq, hfirst =>
        refine ⟨0, by simp, by simpa using heq, fun j hj => absurd hj (by omega)⟩
      | i + 1, hi, heq, hfirst =>
        refine ⟨i + 2, by simpa using hi, by simpa using heq, ?_⟩
        intro j hj
        match j with
        | 0 =>
          simpa using hfirst 0 (by omega)
        | 1 =>
          have h0 : f (minFold f a l) < f a := by simpa using hfirst 0 (by omega)
          simpa using lt_of_lt_of_le h0 h
        | j + 2 =>
          have := hfirst (j + 1) (by omega)
          simpa using this

lemma getD_mem_of_lt {α : Type} (l : List α) (d : α) (j : ℕ)
    (h : j < l.length) : l.getD j d ∈ l := by
  induction l generalizing j with
  | nil => simp at h
  | cons x l ih =>
    match j with
    | 0 => simp
    | j + 1 =>
      rw [List.getD_cons_succ]
      exact List.mem_cons_of_mem _ (ih j (by simpa using h))

/- ## Lemmas: the output ordering relation -/

lemma pickLE_trans (a b c : Pick) (h1 : pickLE a b) (h2 : pickLE b c) :
    pickLE a c := by
  simp only [pickLE, decide_eq_true_eq] at h1 h2 ⊢
  rcases h1 with h1 | ⟨h1, h1e⟩ <;> rcases h2 with h2 | ⟨h2, h2e⟩
  · exact Or.inl (lt_trans h1 h2)
  · exact Or.inl (h2 ▸ h1)
  · exact Or.inl (h1 ▸ h2)
  · exact Or.inr ⟨h1.trans h2, le_trans h2e h1e⟩

lemma pickLE_total (a b : Pick) : pickLE a b || pickLE b a := by
  simp only [pickLE, Bool.or_eq_true, decide_eq_true_eq]
  rcases lt_trichotomy a.ko b.ko with h | h | h
  · exact Or.inl (Or.inl h)
  · rcases le_total b.edge a.edge with he | he
    · exact Or.inl (Or.inr ⟨h, he⟩)
    · exact Or.inr (Or.inr ⟨h.symm, he⟩)
  · exact Or.inr (Or.inl h)

/- ## Claim theorems -/

/-- Claim C4: the logistic transform satisfies `logistic 0 = 0.5`, is
strictly increasing, and maps every (finite) real input strictly inside
`(0, 1)`, never exactly `0` or `1`. -/
theorem C4_logistic_props :
    logistic 0 = 1 / 2 ∧ StrictMono logistic ∧
      ∀ x : ℝ, logistic x ∈ Set.Ioo (0 : ℝ) 1 :=
  ⟨logistic_zero, logistic_strictMono,
    fun x => ⟨logistic_pos x, logistic_lt_one x⟩⟩

/-- Claim C4 witness: the strict-monotonicity part of `C4_logistic_props`
applied at the concrete inputs `0 < 400`. -/
theorem C4_logistic_props_witness : logistic 0 < logistic 400 :=
  C4_logistic_props.2.1 (by norm_num : (0 : ℝ) < 400)

/-- Claim C3: `devig_two_way` returns `none` exactly when an input is
non-numeric or `≤ 1` (in particular on `(1.0, 2.0)` and `(0, 2.0)`), and
for numeric prices `x, y > 1` it returns the reciprocals renormalized by
their sum: a pair summing to exactly `1` with both components in `(0,1)`. -/
theorem C3_devig_two_way_spec :
    devig_two_way (PyVal.num 1) (PyVal.num 2) = none ∧
    devig_two_way (PyVal.num 0) (PyVal.num 2) = none ∧
    (∀ b, devig_two_way PyVal.other b = none) ∧
    (∀ a, devig_two_way a PyVal.other = none) ∧
    (∀ x y : ℝ,
      (devig_two_way (PyVal.num x) (PyVal.num y) = none ↔ x ≤ 1 ∨ y ≤ 1)) ∧
    ∀ x y : ℝ, 1 < x → 1 < y →
      devig_two_way (PyVal.num x) (PyVal.num y) =
        some ((1 / x) / (1 / x + 1 / y), (1 / y) / (1 / x + 1 / y)) ∧
      ∀ p q : ℝ, devig_two_way (PyVal.num x) (PyVal.num y) = some (p, q) →
        p + q = 1 ∧ p ∈ Set.Ioo (0 : ℝ) 1 ∧ q ∈ Set.Ioo (0 : ℝ) 1 := by
  refine ⟨?_, ?_, ?_, ?_, devig_none_iff, ?_⟩
  · exact (devig_none_iff 1 2).mpr (Or.inl le_rfl)
  · exact (devig_none_iff 0 2).mpr (Or.inl (by norm_num))
  · intro b; cases b <;> rfl
  · intro a; cases a <;> rfl
  · intro x y hx hy
    exact ⟨devig_eq_of_gt x y hx hy, fun p q h => devig_sum_one x y p q h⟩

/-- Claim C3 witness: `C3_devig_two_way_spec` applied at the concrete
prices `(2, 2)`, where the de-vigged pair is `(1/2, 1/2)`. -/
theorem C3_devig_two_way_spec_witness :
    devig_two_way (PyVal.num 2) (PyVal.num 2) = some (1 / 2, 1 / 2) := by
  have h := (C3_devig_two_way_spec.2.2.2.2.2 2 2 (by norm_num) (by norm_num)).1
  rw [h]
  norm_num

/-- Claim C7: `kelly_fraction` returns `0` for `odds ≤ 1`; otherwise it is
`k` times the full-Kelly fraction `(p*(b+1)-1)/b` with `b = odds - 1`,
floored at `0` and capped at `MAX_KELLY`; given a non-negative configured
cap the result is always non-negative and never exceeds the cap. -/
theorem C7_kelly_fraction_spec (MK p odds k : ℝ) (hMK : 0 ≤ MK) :
    (odds ≤ 1 → kelly_fraction MK p odds k = 0) ∧
    (1 < odds → kelly_fraction MK p odds k =
      min (max 0 (k * ((p * ((odds - 1) + 1) - 1) / (odds - 1)))) MK) ∧
    0 ≤ kelly_fraction MK p odds k ∧ kelly_fraction MK p odds k ≤ MK := by
  unfold kelly_fraction
  by_cases h : odds ≤ 1
  · simp [h, hMK]
  · have h1 : 1 < odds := lt_of_not_le h
    simp only [if_neg h]
    refine ⟨fun hc => absurd hc h, fun _ => by simp, ?_, min_le_right _ _⟩
    exact le_min (le_max_left 0 _) hMK

/-- Claim C7 witness: `C7_kelly_fraction_spec` applied at the concrete
inputs `MAX_KELLY = 1/50`, `p = 3/5`, `odds = 2`, `k = 1/2`. -/
theorem C7_kelly_fraction_spec_witness :
    0 ≤ kelly_fraction (1 / 50) (3 / 5) 2 (1 / 2) ∧
      kelly_fraction (1 / 50) (3 / 5) 2 (1 / 2) ≤ 1 / 50 :=
  (C7_kelly_fraction_spec (1 / 50) (3 / 5) 2 (1 / 2) (by norm_num)).2.2

/-- Claim C1 (code bug in the source: `r.as` at lines 74-77 is a
SyntaxError, so the real `run_elo` never executes any update step — the
claim holds of the intended engine only).  For the spec-modelled step,
each iteration uses exactly the specified quantities: win probability
`logistic((rh - ra) + HFA)` on ratings that default to `1500` for unknown
competitors, outcome label `1/0/0.5` by strict score comparison, and
effective rate `K*(1 + ln(1 + |hs - as|))`; the new ratings are
`rh + k_eff*(y - p_home)` and `ra - k_eff*(y - p_home)`. -/
theorem C1_eloStep_update (K HFA : ℝ) (st : Ratings × ℝ × ℕ) (m : MatchRec)
    (h : m.home ≠ m.away) :
    getR (eloStep K HFA st m).1 m.home =
      getR st.1 m.home +
        specKeff K m.hs m.as *
          (specOutcome m.hs m.as -
            specPHome (getR st.1 m.home) (getR st.1 m.away) HFA) ∧
    getR (eloStep K HFA st m).1 m.away =
      getR st.1 m.away -
        specKeff K m.hs m.as *
          (specOutcome m.hs m.as -
            specPHome (getR st.1 m.home) (getR st.1 m.away) HFA) ∧
    ∀ (rs : Ratings) (t : String), (∀ p ∈ rs, p.1 ≠ t) → getR rs t = 1500 :=
  ⟨(eloStep_ratings K HFA st m h).1, (eloStep_ratings K HFA st m h).2,
    getR_absent⟩

/-- Claim C1 witness: `C1_eloStep_update` at the concrete match
`A 20 : 10 B` from the empty rating state. -/
theorem C1_eloStep_update_witness :
    getR (eloStep 30 60 ([], 0, 0) ⟨"A", "B", 20, 10⟩).1 "A" =
      1500 + specKeff 30 20 10 * (specOutcome 20 10 - specPHome 1500 1500 60) :=
  (C1_eloStep_update 30 60 ([], 0, 0) ⟨"A", "B", 20, 10⟩ (by decide)).1

/-- Claim C2 (code bug in the source: the module fails to parse at lines
74-77, so the real `run_elo` never processes any match — the claim holds
of the intended engine only).  The spec-modelled update is zero-sum: after
one step on a match between two distinct competitors, the sum of their two
ratings is unchanged. -/
theorem C2_eloStep_zero_sum (K HFA : ℝ) (st : Ratings × ℝ × ℕ) (m : MatchRec)
    (h : m.home ≠ m.away) :
    getR (eloStep K HFA st m).1 m.home + getR (eloStep K HFA st m).1 m.away =
      getR st.1 m.home + getR st.1 m.away := by
  obtain ⟨h1, h2⟩ := eloStep_ratings K HFA st m h
  rw [h1, h2]
  ring

/-- Claim C2 witness: `C2_eloStep_zero_sum` at the concrete match
`A 20 : 10 B` from the empty rating state: the rating sum stays `3000`. -/
theorem C2_eloStep_zero_sum_witness :
    getR (eloStep 30 60 ([], 0, 0) ⟨"A", "B", 20, 10⟩).1 "A" +
      getR (eloStep 30 60 ([], 0, 0) ⟨"A", "B", 20, 10⟩).1 "B" =
        1500 + 1500 :=
  C2_eloStep_zero_sum 30 60 ([], 0, 0) ⟨"A", "B", 20, 10⟩ (by decide)

/-- Claim C5 (code bug in the source: the claim promises graceful
degradation "without raising", but the script raises SyntaxError at parse
time — lines 74-77, `r.as` — before `run_elo` is even defined, so the
pipeline fails rather than degrades; the claim holds of the intended
engine only).  For the spec-modelled engine, an empty match history yields
the empty rating mapping and a zero loss, and the caller falls back to
baseline (empty) ratings with the fixed default home-field advantage `60`. -/
theorem C5_empty_history :
    (∀ K HFA : ℝ, run_elo [] K HFA = ([], 0)) ∧ modelParams [] = ([], 60) :=
  ⟨run_elo_nil, by simp [modelParams]⟩

/-- Claim C6 (code bug in the source: `tune_elo` can never invoke any
replay, because the module fails to parse at lines 74-77 inside `run_elo`
— the claim holds of the intended tuner only).  The spec-modelled
`tune_elo` enumerates the grid `K ∈ [15,25,35] × HFA ∈ [40,60,80]` in
exactly the nested-loop order, and returns a grid combination whose replay
loss is minimal over the whole grid while every earlier-enumerated
combination has a strictly larger loss (so the first-enumerated candidate
is retained on ties). -/
theorem C6_tune_elo_spec (df : List MatchRec) :
    eloGrid = [(15, 40), (15, 60), (15, 80), (25, 40), (25, 60), (25, 80),
      (35, 40), (35, 60), (35, 80)] ∧
    ∃ i, i < eloGrid.length ∧ eloGrid.getD i (0, 0) = tune_elo df ∧
      (∀ j, j < eloGrid.length →
        lossAt df (tune_elo df) ≤ lossAt df (eloGrid.getD j (0, 0))) ∧
      ∀ j, j < i → lossAt df (tune_elo df) < lossAt df (eloGrid.getD j (0, 0)) := by
  have hgrid : eloGrid = (15, 40) :: [(15, 60), (15, 80), (25, 40), (25, 60),
      (25, 80), (35, 40), (35, 60), (35, 80)] := by
    unfold eloGrid
    simp [List.flatMap]
  refine ⟨by rw [hgrid], ?_⟩
  have hkey : tune_elo df = minFold (lossAt df) (15, 40)
      [(15, 60), (15, 80), (25, 40), (25, 60), (25, 80), (35, 40), (35, 60),
        (35, 80)] := by
    show (eloGrid.foldl (tuneStep (lossAt df)) (none, (30, 60))).2 = _
    rw [hgrid, foldl_tuneStep_none]
  obtain ⟨i, hi, heq, hfirst⟩ :=
    minFold_first (lossAt df) ((0 : ℝ), (0 : ℝ)) (15, 40)
      [(15, 60), (15, 80), (25, 40), (25, 60), (25, 80), (35, 40), (35, 60),
        (35, 80)]
  have hmin :=
    minFold_le (lossAt df) ((15 : ℝ), (40 : ℝ))
      [(15, 60), (15, 80), (25, 40), (25, 60), (25, 80), (35, 40), (35, 60),
        (35, 80)]
  refine ⟨i, ?_, ?_, ?_, ?_⟩
  · rw [hgrid]; exact hi
  · rw [hgrid, hkey]; exact heq
  · intro j hj
    rw [hkey, hgrid]
    rw [hgrid] at hj
    have hmem := getD_mem_of_lt _ ((0 : ℝ), (0 : ℝ)) j hj
    rcases List.mem_cons.mp hmem with hx | hx
    · rw [hx]; exact hmin.1
    · exact hmin.2 _ hx
  · intro j hj
    rw [hkey, hgrid]
    exact hfirst j hj

/-- Claim C6 witness: `C6_tune_elo_spec` on the empty history, where every
grid combination has loss `0`, forces the first-enumerated candidate
`(K, HFA) = (15, 40)` to be returned. -/
theorem C6_tune_elo_spec_witness : tune_elo [] = (15, 40) := by
  obtain ⟨hg, i, hi, heq, hmin, hfirst⟩ := C6_tune_elo_spec []
  have hz : ∀ p : ℝ × ℝ, lossAt [] p = 0 := by
    intro p
    unfold lossAt
    rw [run_elo_nil]
  rcases Nat.eq_zero_or_pos i with h0 | hpos
  · subst h0
    rw [hg] at heq
    simpa using heq.symm
  · exfalso
    have hlt := hfirst 0 hpos
    rw [hz, hz] at hlt
    exact lt_irrefl 0 hlt

/-- Claim C8: for a pricable contest (de-vig succeeded) the aggregator
selects the side with the weakly larger edge — ties favor home — and emits
a record exactly when the chosen side's edge meets `EDGE_MIN`; otherwise
the contest is dropped (result `none`). -/
theorem C8_side_selection (ratings : Ratings) (HFA EDGE_MIN : ℝ) (c : Contest)
    (m_home m_away p_home edge_home edge_away : ℝ)
    (hd : devig_two_way (PyVal.num c.bestHome) (PyVal.num c.bestAway) =
      some (m_home, m_away))
    (hp : p_home = logistic ((getR ratings c.home - getR ratings c.away) + HFA))
    (he : edge_home = p_home - m_home)
    (ha : edge_away = (1 - p_home) - m_away) :
    (edge_home ≥ edge_away →
      (EDGE_MIN ≤ edge_home →
        processContest ratings HFA EDGE_MIN c =
          some ⟨c.ko, Side.home, c.home, c.bestHome, m_home, p_home,
            edge_home⟩) ∧
      (edge_home < EDGE_MIN →
        processContest ratings HFA EDGE_MIN c = none)) ∧
    (edge_home < edge_away →
      (EDGE_MIN ≤ edge_away →
        processContest ratings HFA EDGE_MIN c =
          some ⟨c.ko, Side.away, c.away, c.bestAway, m_away, 1 - p_home,
            edge_away⟩) ∧
      (edge_away < EDGE_MIN →
        processContest ratings HFA EDGE_MIN c = none)) := by
  subst hp he ha
  unfold processContest
  rw [hd]
  simp only [edgePair]
  constructor
  · intro hge
    rw [if_pos hge]
    exact ⟨fun hmin => by rw [if_neg (not_lt.mpr hmin)],
      fun hlt => by rw [if_pos hlt]⟩
  · intro hlt
    rw [if_neg (not_le.mpr hlt)]
    exact ⟨fun hmin => by rw [if_neg (not_lt.mpr hmin)],
      fun hlt2 => by rw [if_pos hlt2]⟩

/-- Claim C8 witness: `C8_side_selection` at the concrete contest
`A vs B` with both best prices `2`, empty ratings, `HFA = 0` and
`EDGE_MIN = 0`: both edges are `0`, the tie goes to home, and the record
is emitted. -/
theorem C8_side_selection_witness :
    processContest [] 0 0 ⟨"A", "B", 7, 2, 2⟩ =
      some ⟨7, Side.home, "A", 2, 1 / 2, 1 / 2, 0⟩ := by
  have hd : devig_two_way (PyVal.num 2) (PyVal.num 2) = some (1 / 2, 1 / 2) := by
    rw [devig_eq_of_gt 2 2 (by norm_num) (by norm_num)]
    norm_num
  have hp : (1 / 2 : ℝ) =
      logistic ((getR [] "A" - getR [] "B") + 0) := by
    show (1 / 2 : ℝ) = logistic ((1500 - 1500) + 0)
    rw [show ((1500 : ℝ) - 1500) + 0 = 0 by norm_num, logistic_zero]
  have h := C8_side_selection [] 0 0 ⟨"A", "B", 7, 2, 2⟩ (1 / 2) (1 / 2)
    (1 / 2) 0 0 hd hp (by norm_num) (by norm_num)
  exact (h.1 le_rfl).1 le_rfl

/-- Claim C9: the emitted recommendation list is (a permutation of the
qualifying picks and) pairwise ordered: any earlier record has a strictly
smaller kickoff, or the same kickoff and a weakly larger edge — so for
kickoffs `T1 < T2` the `T1` record always precedes the `T2` record, and
same-kickoff records are in descending edge order. -/
theorem C9_output_ordering (ratings : Ratings) (HFA EDGE_MIN : ℝ)
    (cs : List Contest) :
    List.Perm (mainPicks ratings HFA EDGE_MIN cs)
        (cs.filterMap (processContest ratings HFA EDGE_MIN)) ∧
      (mainPicks ratings HFA EDGE_MIN cs).Pairwise
        (fun a b => a.ko < b.ko ∨ (a.ko = b.ko ∧ b.edge ≤ a.edge)) := by
  constructor
  · exact List.mergeSort_perm _ _
  · have h := List.sorted_mergeSort pickLE_trans pickLE_total
      (cs.filterMap (processContest ratings HFA EDGE_MIN))
    exact h.imp fun hab => by simpa [pickLE] using hab

/-- Claim C10: for a contest that passes de-vigorization the two sides'
edges sum to exactly zero, and so for a strictly positive minimum-edge
threshold at most one side can meet it. -/
theorem C10_edges_zero_sum (x y m_home m_away p_home EDGE_MIN : ℝ)
    (hd : devig_two_way (PyVal.num x) (PyVal.num y) = some (m_home, m_away))
    (hE : 0 < EDGE_MIN) :
    (edgePair p_home m_home m_away).1 + (edgePair p_home m_home m_away).2 = 0 ∧
      ¬(EDGE_MIN ≤ (edgePair p_home m_home m_away).1 ∧
        EDGE_MIN ≤ (edgePair p_home m_home m_away).2) := by
  have hsum := (devig_sum_one x y m_home m_away hd).1
  unfold edgePair
  refine ⟨by simp only; linarith, ?_⟩
  rintro ⟨h1, h2⟩
  simp only at h1 h2
  linarith

/-- Claim C10 witness: `C10_edges_zero_sum` at the concrete prices
`(2, 2)` (de-vig `(1/2, 1/2)`), model home probability `3/10`, and
threshold `1/50`. -/
theorem C10_edges_zero_sum_witness :
    (edgePair (3 / 10) (1 / 2) (1 / 2)).1 +
      (edgePair (3 / 10) (1 / 2) (1 / 2)).2 = 0 := by
  have hd : devig_two_way (PyVal.num 2) (PyVal.num 2) = some (1 / 2, 1 / 2) := by
    rw [devig_eq_of_gt 2 2 (by norm_num) (by norm_num)]
    norm_num
  exact (C10_edges_zero_sum 2 2 (1 / 2) (1 / 2) (3 / 10) (1 / 50) hd
    (by norm_num)).1

end NrlPicks
